import Mathlib

/-!
Verification of the reconciliation engine of the `cleaner` repository
(`src/cleaner.ts`, class `Cleaner`).  The TypeScript source is shallowly
embedded: strings are Lean `String`s (lists of characters), JavaScript
numbers arising from the similarity quotient are modelled as `Option ℚ`
(`none` standing for the IEEE NaN produced by `0 / 0`; every other value
reached by the program is an exact rational), and the two regular-expression
replacements of `normalizeSemicolons` are modelled by explicit character
scanners that reproduce the left-to-right, greedy-with-backtracking
semantics of `String.prototype.replace` for those patterns.
-/

/-- Character model of the JavaScript whitespace class `\s` (and of
`String.prototype.trim`) for the character set exercised by this program:
space, tab, newline, carriage return. -/
def isSpaceChar (c : Char) : Bool :=
  c = ' ' || c = '\t' || c = '\n' || c = '\r'

/-- The single quote character `'` (code 39). -/
def squote : Char := Char.ofNat 39

/-- The double quote character `"` (code 34). -/
def dquote : Char := Char.ofNat 34

/-- The backtick character (code 96). -/
def btick : Char := Char.ofNat 96

/-- The delimiter class of the tokenizer regex in `tokenize`
(`src/cleaner.ts` line 122): the bracket expression
of `/(\s+|\b|[{}[\]().,;:+\-*/%=<>!&|^~?])/g` without the escapes. -/
def delimChars : List Char :=
  ['{', '}', '[', ']', '(', ')', '.', ',', ';', ':',
   '+', '-', '*', '/', '%', '=', '<', '>', '!', '&', '|', '^', '~', '?']

/-- Whether a character is one of the structural delimiters of the
tokenizer. -/
def isDelimChar (c : Char) : Bool := delimChars.contains c

/-- JavaScript word characters `\w` (`[A-Za-z0-9_]`), used by the
word-boundary assertion `\b` of the tokenizer regex. -/
def isWordChar (c : Char) : Bool := c.isAlphanum || c = '_'

/-- Whether the tokenizer separates two adjacent non-whitespace characters:
a cut happens at a delimiter character (each delimiter is matched as a
one-character separator and re-emitted as a captured token) and at every
`\b` word boundary, i.e. wherever the `\w`-ness of the two characters
differs. -/
def tokenCut (c₁ c₂ : Char) : Bool :=
  isDelimChar c₁ || isDelimChar c₂ || (isWordChar c₁ != isWordChar c₂)

/-- Scanner for `tokenize` (`src/cleaner.ts` lines 120-124):
`content.split(/(\s+|\b|[{}[\]().,;:+\-*/%=<>!&|^~?])/g)` followed by
`.filter(token => token.trim().length > 0)`.  After the filter drops the
whitespace separators, the empty strings produced by zero-width `\b`
matches and every blank segment, the surviving tokens are exactly the
maximal runs of non-whitespace characters not containing an internal cut
(`tokenCut`).  `acc` holds the current token reversed. -/
def tokenizeGo : List Char → List Char → List String
  | [], [] => []
  | [], acc => [String.mk acc.reverse]
  | c :: cs, acc =>
    if isSpaceChar c then
      match acc with
      | [] => tokenizeGo cs []
      | _ => String.mk acc.reverse :: tokenizeGo cs []
    else
      match acc with
      | [] => tokenizeGo cs [c]
      | a :: _ =>
        if tokenCut a c then String.mk acc.reverse :: tokenizeGo cs [c]
        else tokenizeGo cs (c :: acc)

/-- `tokenize` of `src/cleaner.ts` lines 120-124. -/
def tokenize (content : String) : List String :=
  tokenizeGo content.data []

/-- `tokens1.filter(token => tokens2.includes(token))` of
`computeSimilarity` (`src/cleaner.ts` line 114). -/
def interTokens (t₁ t₂ : List String) : List String :=
  t₁.filter (fun tok => t₂.contains tok)

/-- `new Set([...tokens1, ...tokens2]).size` of `computeSimilarity`
(`src/cleaner.ts` line 115): the number of distinct tokens occurring in
either sequence. -/
def unionSize (t₁ t₂ : List String) : Nat :=
  (t₁ ++ t₂).dedup.length

/-- `computeSimilarity` (`src/cleaner.ts` lines 110-118).  The JavaScript
division `intersection.length / union.size` is exact on every reachable
input except `0 / 0`, which yields NaN and is modelled by `none`; for
`u ≠ 0` the quotient is the rational `mkRat i u` (equal to `(i : ℚ) / u`,
see `computeSimilarity_eq_div` below). -/
def computeSimilarity (content1 content2 : String) : Option ℚ :=
  let t₁ := tokenize content1
  let t₂ := tokenize content2
  let i := (interTokens t₁ t₂).length
  let u := unionSize t₁ t₂
  if u = 0 then none else some (mkRat (i : Int) u)

/-- The JavaScript `>` comparison on the similarity values used by the
acceptance test of `cleanContent` (line 54): any comparison involving NaN
is false. -/
def jsGt : Option ℚ → Option ℚ → Bool
  | some a, some b => decide (b < a)
  | _, _ => false

/-- For a non-degenerate denominator, `computeSimilarity` is the real
division of the intersection count by the union size, exactly as the
JavaScript source computes it. -/
theorem computeSimilarity_eq_div (a b : String)
    (h : unionSize (tokenize a) (tokenize b) ≠ 0) :
    computeSimilarity a b =
      some (((interTokens (tokenize a) (tokenize b)).length : ℚ) /
        (unionSize (tokenize a) (tokenize b) : ℚ)) := by
  unfold computeSimilarity
  rw [if_neg h, Rat.mkRat_eq_div]
  push_cast
  rfl

/-- `detectQuoteStyle` (`src/cleaner.ts` lines 71-75):
`(content.match(/'/g) || []).length` counts the single quotes,
`(content.match(/"/g) || []).length` the double quotes, and the dominant
style is `"` whenever `doubleQuotes >= singleQuotes`.  The source returns
the one-character string; we return the character. -/
def detectQuoteStyle (content : String) : Char :=
  let singleQuotes := content.data.count squote
  let doubleQuotes := content.data.count dquote
  if singleQuotes ≤ doubleQuotes then dquote else squote

/-- The character class `["'`]` of `normalizeQuotes`. -/
def isQuoteChar (c : Char) : Bool := c = dquote || c = squote || c = btick

/-- `normalizeQuotes` (`src/cleaner.ts` lines 66-69):
`content.replace(/["'`]/g, baseQuoteStyle)` with
`baseQuoteStyle = detectQuoteStyle(this.baseContent)` — every quote
character of `content` is replaced by the base's dominant quote. -/
def normalizeQuotes (base content : String) : String :=
  String.mk (content.data.map
    (fun c => if isQuoteChar c then detectQuoteStyle base else c))

/-- Position of the last `'\n'` in a character list, if any.  Used to model
the greedy backtracking of `\s*(\n|$)`: when the whitespace run after the
anchor character is followed by a non-matching character, the regex engine
backs off until group 2 can match a `'\n'`, which selects the last newline
of the run. -/
def lastNl : List Char → Option Nat
  | [] => none
  | c :: rest =>
    match lastNl rest with
    | some j => some (j + 1)
    | none => if c = '\n' then some 0 else none

/-- Scanner for `content.replace(/([^;])\s*(\n|$)/g, '$1;$2')`, the
`baseSemicolonStyle = true` branch of `normalizeSemicolons`
(`src/cleaner.ts` line 80).  At a character `c ≠ ';'` with following
maximal whitespace run `w` and remainder `r`: if `r` is empty the greedy
`\s*` consumes all of `w` and `$` matches (`$2 = ''`), emitting `c;` and
ending the string; otherwise, if `w` contains a newline, backtracking makes
`$2` the last `'\n'` of `w` and the match removes `w` up to it, emitting
`c;\n` and continuing after that newline; otherwise there is no match at
`c` and scanning advances one character.  `fuel` is an upper bound on the
number of scanning steps; callers pass the length of the list, which
suffices because every step strictly shortens the list. -/
def appendSemisGo : Nat → List Char → List Char
  | 0, _ => []
  | _ + 1, [] => []
  | fuel + 1, c :: rest =>
    if c = ';' then c :: appendSemisGo fuel rest
    else
      let w := rest.takeWhile isSpaceChar
      let r := rest.dropWhile isSpaceChar
      if r.isEmpty then [c, ';']
      else
        match lastNl w with
        | some j => c :: ';' :: '\n' :: appendSemisGo fuel (w.drop (j + 1) ++ r)
        | none => c :: appendSemisGo fuel rest

/-- Scanner for `content.replace(/;\s*(\n|$)/g, '$1')`, the
`baseSemicolonStyle = false` branch of `normalizeSemicolons`
(`src/cleaner.ts` line 82), with the same greedy `\s*(\n|$)` semantics as
`appendSemisGo`: a matched line-trailing `';'` is removed together with the
whitespace up to the retained `'\n'` (or, at end of input, together with
all trailing whitespace and the final newline, since `$` lets `\s*` keep
everything it grabbed). -/
def stripSemisGo : Nat → List Char → List Char
  | 0, _ => []
  | _ + 1, [] => []
  | fuel + 1, c :: rest =>
    if c = ';' then
      let w := rest.takeWhile isSpaceChar
      let r := rest.dropWhile isSpaceChar
      if r.isEmpty then []
      else
        match lastNl w with
        | some j => '\n' :: stripSemisGo fuel (w.drop (j + 1) ++ r)
        | none => c :: stripSemisGo fuel rest
    else c :: stripSemisGo fuel rest

/-- `normalizeSemicolons` (`src/cleaner.ts` lines 77-84):
`baseSemicolonStyle = this.baseContent.includes(';')` selects between the
appending and the stripping replacement. -/
def normalizeSemicolons (base content : String) : String :=
  if base.data.contains ';' then
    String.mk (appendSemisGo content.data.length content.data)
  else
    String.mk (stripSemisGo content.data.length content.data)

/-- Split a character list at every `'\n'` (the separators are dropped),
modelling `content.split('\n')`.  The empty string yields `[[]]`, as in
JavaScript. -/
def splitNl : List Char → List (List Char)
  | [] => [[]]
  | c :: rest =>
    match splitNl rest with
    | [] => [[c]]
    | l :: ls => if c = '\n' then [] :: l :: ls else (c :: l) :: ls

/-- `String.prototype.trim`: drop whitespace from both ends. -/
def trimChars (l : List Char) : List Char :=
  ((l.dropWhile isSpaceChar).reverse.dropWhile isSpaceChar).reverse

/-- `line.replace(/\s+/g, ' ')`: collapse each maximal whitespace run to a
single space.  The Boolean argument records whether the previous character
was whitespace (i.e. whether we are inside a run that has already emitted
its space). -/
def collapseWsGo : Bool → List Char → List Char
  | _, [] => []
  | prevWs, c :: rest =>
    if isSpaceChar c then
      if prevWs then collapseWsGo true rest
      else ' ' :: collapseWsGo true rest
    else c :: collapseWsGo false rest

/-- `normalizeWhitespace` (`src/cleaner.ts` lines 86-91):
`content.split('\n').map(line => line.trim().replace(/\s+/g, ' ')).join('\n')`. -/
def normalizeWhitespace (_base content : String) : String :=
  String.mk (List.intercalate ['\n']
    ((splitNl content.data).map (fun l => collapseWsGo false (trimChars l))))

/-- The leading-run extractor of `this.baseContent.match(/^[ \t]+/m)`
(`src/cleaner.ts` line 94): in multiline mode `^` matches at the start of
every line, so the first match is the `[ \t]+` prefix of the first line
that begins with a space or tab; if no line does, the match is `null` and
the source falls back to two spaces. -/
def baseIndentOf (base : String) : List Char :=
  match (splitNl base.data).find?
      (fun l => match l with
        | [] => false
        | c :: _ => c = ' ' || c = '\t') with
  | some l => l.takeWhile (fun c => c = ' ' || c = '\t')
  | none => [' ', ' ']

/-- `normalizeIndentation` (`src/cleaner.ts` lines 93-103): for each line,
`indentLevel = (line.match(/^\s*/)[0].length / 2) | 0` (the floored half
length of the leading whitespace run) and the result line is
`baseIndent.repeat(indentLevel) + line.trim()`. -/
def normalizeIndentation (base content : String) : String :=
  let baseIndent := baseIndentOf base
  String.mk (List.intercalate ['\n']
    ((splitNl content.data).map (fun l =>
      let indentLevel := (l.takeWhile isSpaceChar).length / 2
      (List.replicate indentLevel baseIndent).flatten ++ trimChars l)))

/-- Whether a character list contains the two-character sequence `"\r\n"`,
modelling `this.baseContent.includes('\r\n')` (`src/cleaner.ts` line 106). -/
def hasCRLF : List Char → Bool
  | '\r' :: '\n' :: _ => true
  | _ :: rest => hasCRLF rest
  | [] => false

/-- `content.replace(/\r?\n/g, baseEnding)`: rewrite every line break
(`"\r\n"` or `"\n"`; a lone `'\r'` is not a break) to `ending`. -/
def replaceNlGo (ending : List Char) : List Char → List Char
  | [] => []
  | '\r' :: '\n' :: rest => ending ++ replaceNlGo ending rest
  | c :: rest =>
    if c = '\n' then ending ++ replaceNlGo ending rest
    else c :: replaceNlGo ending rest

/-- `normalizeLineEndings` (`src/cleaner.ts` lines 105-108). -/
def normalizeLineEndings (base content : String) : String :=
  let ending := if hasCRLF base.data then ['\r', '\n'] else ['\n']
  String.mk (replaceNlGo ending content.data)

/-- The ordered transformation list `cleaningMethods` of `cleanContent`
(`src/cleaner.ts` lines 39-45).  Each method reads `this.baseContent`,
passed here as the first argument. -/
def cleaningMethods : List (String → String → String) :=
  [normalizeQuotes, normalizeSemicolons, normalizeWhitespace,
   normalizeIndentation, normalizeLineEndings]

/-- One pass of the `for (const method of cleaningMethods)` loop of
`cleanContent` (`src/cleaner.ts` lines 50-60): return the first candidate
`method.call(this, cleanedContent)` whose similarity against
`this.baseContent` is strictly greater than the current one (the source
then sets `improved = true` and `break`s), or `none` when the whole list is
traversed without an acceptance. -/
def firstImprove (base cur : String) : List (String → String → String) → Option String
  | [] => none
  | m :: ms =>
    let n := m base cur
    if jsGt (computeSimilarity base n) (computeSimilarity base cur) then some n
    else firstImprove base cur ms

/-- One iteration of the outer `while (improved)` loop of `cleanContent`:
the first strictly improving candidate over the ordered method list, if
any.  (The source carries `currentSimilarity` in a variable; it always
equals `computeSimilarity(baseContent, cleanedContent)`, so the comparison
is equivalently recomputed here.) -/
def improveStep (base cur : String) : Option String :=
  firstImprove base cur cleaningMethods

/-- The state transition of the `while` loop: move to the accepted
candidate, or stay put at a fixpoint. -/
def stepF (base cur : String) : String :=
  match improveStep base cur with
  | some c => c
  | none => cur

/-- `intersection.length` of `computeSimilarity(baseContent, cur)`: the
numerator of the similarity of `cur` against `base`. -/
def interCount (base cur : String) : Nat :=
  (interTokens (tokenize base) (tokenize cur)).length

/-- `union.size` of `computeSimilarity(baseContent, cur)`: the denominator
of the similarity of `cur` against `base`. -/
def uSize (base cur : String) : Nat :=
  unionSize (tokenize base) (tokenize cur)

/-- The number of fractions `b / v` with `b ≤ N`-style bounded numerator
that lie strictly above `a / u`, counted as pairs: for a fixed numerator
`b`, the denominators `v ≥ 1` with `a * v < b * u`.  Since `a ≥ 1` forces
`v < b * u`, the range `Finset.range (b * u)` is exhaustive. -/
def cntAbove (a u b : Nat) : Nat :=
  ((Finset.range (b * u)).filter (fun v => 1 ≤ v ∧ a * v < b * u)).card

/-- Rank of the score `a / u` among the similarity values reachable with
numerator at most `N`: the number of pairs `(b, v)`, `b ≤ N`, `v ≥ 1`,
with `b / v > a / u`.  Every accepted step of the `while` loop strictly
increases the score and keeps the numerator at most `N` (the length of the
base token sequence), so this rank strictly decreases (for `a ≥ 1`). -/
def rankR (N a u : Nat) : Nat :=
  (Finset.range (N + 1)).sum (fun b => cntAbove a u b)

/-- Fuel bound for the `while (improved)` loop of `cleanContent'.  A state
with similarity numerator `0` can make at most one accepted step before the
numerator becomes positive, after which `rankR` strictly decreases at every
accepted step; the candidates of the single possible zero-numerator step are
the five method outputs, so the maximum of their ranks plus one bounds the
remaining steps. -/
def stateRank (base cur : String) : Nat :=
  if interCount base cur = 0 then
    (cleaningMethods.map (fun m =>
      rankR (tokenize base).length (interCount base (m base cur))
        (uSize base (m base cur)))).foldr max 0 + 1
  else rankR (tokenize base).length (interCount base cur) (uSize base cur)

/-- The `while (improved)` loop of `cleanContent` (`src/cleaner.ts` lines
47-61), with an explicit fuel argument.  `cleanFuel_fix` below proves that
the fuel used by `cleanContent'—namely `stateRank base content + 1`—always
reaches the loop's fixpoint, so the `0` clause is never the final word. -/
def cleanFuel (base : String) : Nat → String → String
  | 0, cur => cur
  | fuel + 1, cur =>
    match improveStep base cur with
    | none => cur
    | some c => cleanFuel base fuel c

/-- `cleanContent` (`src/cleaner.ts` lines 34-64): run the transformation
fixpoint loop on `content` with `this.baseContent = base` as the
acceptance reference. -/
def cleanContent (base content : String) : String :=
  cleanFuel base (stateRank base content + 1) content

/-- The tags of the change objects returned by `diffLines` of the external
`diff` package. -/
inductive DiffTag | common | removed | added
deriving DecidableEq

/-- Number of common entries of a diff, used to select the branch with the
longest common subsequence. -/
def commonCount (l : List (DiffTag × String)) : Nat :=
  l.countP (fun p => p.1 = DiffTag.common)

/-- Modelled from the spec: the line-level diff used by `clean`
(`src/cleaner.ts` line 13) is `diffLines` of the external `diff` npm
package, whose code is not part of this repository.  Following §4.2 of the
spec ("run a line-level diff (e.g., longest-common-subsequence-based)
between base and modified; contiguous inserted/modified blocks become
changed regions, contiguous common blocks become unchanged regions;
removed-only base blocks contribute nothing to the modified-side output"),
this is an LCS line diff: equal heads are common, otherwise the branch
keeping more common lines wins, with removals emitted before insertions on
ties.  `fuel` bounds the recursion depth; callers pass the sum of the two
lengths, which suffices since each step consumes a line. -/
def lcsDiffGo : Nat → List String → List String → List (DiffTag × String)
  | _, [], ys => ys.map (fun y => (DiffTag.added, y))
  | _, xs, [] => xs.map (fun x => (DiffTag.removed, x))
  | 0, _, _ => []
  | fuel + 1, x :: xs, y :: ys =>
    if x = y then (DiffTag.common, x) :: lcsDiffGo fuel xs ys
    else
      let d₁ := (DiffTag.removed, x) :: lcsDiffGo fuel xs (y :: ys)
      let d₂ := (DiffTag.added, y) :: lcsDiffGo fuel (x :: xs) ys
      if commonCount d₁ < commonCount d₂ then d₂ else d₁

/-- Modelled from the spec: entry point of the line diff. -/
def lcsDiff (xs ys : List String) : List (DiffTag × String) :=
  lcsDiffGo (xs.length + ys.length) xs ys

/-- Merge consecutive diff entries with the same tag into one part whose
value is the concatenation, as the change objects of `diffLines` carry one
multi-line `value` per hunk. -/
def groupParts : List (DiffTag × String) → List (DiffTag × String)
  | [] => []
  | (t, v) :: rest =>
    match groupParts rest with
    | [] => [(t, v)]
    | (t', v') :: rs =>
      if t = t' then (t, v ++ v') :: rs else (t, v) :: (t', v') :: rs

/-- Split into lines, each keeping its trailing newline (the line
tokenization used by `diffLines`).  `acc` holds the current line
reversed. -/
def splitKeepNlGo : List Char → List Char → List String
  | [], [] => []
  | [], acc => [String.mk acc.reverse]
  | c :: rest, acc =>
    if c = '\n' then String.mk (acc.reverse ++ ['\n']) :: splitKeepNlGo rest []
    else splitKeepNlGo rest (c :: acc)

/-- The line list handed to the diff. -/
def splitKeepNl (s : String) : List String :=
  splitKeepNlGo s.data []

/-- `clean` (`src/cleaner.ts` lines 12-32): diff the two texts by lines,
copy unchanged parts verbatim, drop removed parts, pass added parts through
the transformation fixpoint loop, and report the concatenation together
with `computeSimilarity(this.baseContent, cleanedContent)`. -/
def clean (baseContent currentContent : String) : String × Option ℚ :=
  let diff := groupParts (lcsDiff (splitKeepNl baseContent) (splitKeepNl currentContent))
  let cleanedContent := diff.foldl
    (fun acc p =>
      match p.1 with
      | DiffTag.added => acc ++ cleanContent baseContent p.2
      | DiffTag.removed => acc
      | DiffTag.common => acc ++ p.2) ""
  (cleanedContent, computeSimilarity baseContent cleanedContent)

/-- Base text of the monotonicity counterexample: `" "` then `@'` on two
lines (one double-quote pair, one token `@'`). -/
def exB3 : String := String.mk [dquote, ' ', dquote, '\n', '@', squote, '\n']

/-- Modified text of the monotonicity counterexample: the second line
becomes `@' '`. -/
def exM3 : String :=
  String.mk [dquote, ' ', dquote, '\n', '@', squote, ' ', squote, '\n']

/-- Output of `clean exB3 exM3`: quote normalization turned the second line
into `@" "`. -/
def exC3out : String :=
  String.mk [dquote, ' ', dquote, '\n', '@', dquote, ' ', dquote, '\n']

/-- Base text of the region-reference counterexample: `"b"`, `"c"`, `'a'`
on three lines. -/
def exB7 : String :=
  String.mk [dquote, 'b', dquote, '\n', dquote, 'c', dquote, '\n',
             squote, 'a', squote, '\n']

/-- Modified text of the region-reference counterexample: the third line
becomes `'d'`. -/
def exM7 : String :=
  String.mk [dquote, 'b', dquote, '\n', dquote, 'c', dquote, '\n',
             squote, 'd', squote, '\n']

/-- The single added region of `exM7` against `exB7`: the line `'d'`. -/
def exP7 : String := String.mk [squote, 'd', squote, '\n']

/-- The base line aligned with the added region: `'a'`. -/
def exAligned7 : String := String.mk [squote, 'a', squote, '\n']

/-- What the engine actually produces for the region: `"d"`. -/
def exQ7 : String := String.mk [dquote, 'd', dquote, '\n']

/-- The full output of `clean exB7 exM7`. -/
def exC7out : String :=
  String.mk [dquote, 'b', dquote, '\n', dquote, 'c', dquote, '\n',
             dquote, 'd', dquote, '\n']

theorem unionSize_eq_card (t₁ t₂ : List String) :
    unionSize t₁ t₂ = (t₁.toFinset ∪ t₂.toFinset).card := by
  rw [unionSize, ← List.toFinset_append, List.card_toFinset]

theorem unionSize_eq_zero_iff (t₁ t₂ : List String) :
    unionSize t₁ t₂ = 0 ↔ t₁ = [] ∧ t₂ = [] := by
  rw [unionSize, List.length_eq_zero, List.dedup_eq_nil, List.append_eq_nil]

theorem interTokens_length_le (t₁ t₂ : List String) :
    (interTokens t₁ t₂).length ≤ t₁.length :=
  List.length_filter_le _ _

theorem interTokens_le_unionSize (t₁ t₂ : List String) (h : t₁.Nodup) :
    (interTokens t₁ t₂).length ≤ unionSize t₁ t₂ := by
  calc (interTokens t₁ t₂).length ≤ t₁.length := interTokens_length_le t₁ t₂
    _ = t₁.toFinset.card := (List.toFinset_card_of_nodup h).symm
    _ ≤ (t₁.toFinset ∪ t₂.toFinset).card :=
        Finset.card_le_card Finset.subset_union_left
    _ = unionSize t₁ t₂ := (unionSize_eq_card t₁ t₂).symm

theorem interTokens_self (t : List String) : interTokens t t = t := by
  rw [interTokens, List.filter_eq_self]
  intro a ha
  exact List.elem_eq_true_of_mem ha

theorem unionSize_self (t : List String) (h : t.Nodup) :
    unionSize t t = t.length := by
  rw [unionSize_eq_card, Finset.union_self, List.toFinset_card_of_nodup h]

theorem computeSimilarity_eq_none_iff (a b : String) :
    computeSimilarity a b = none ↔ tokenize a = [] ∧ tokenize b = [] := by
  unfold computeSimilarity
  rw [← unionSize_eq_zero_iff (tokenize a) (tokenize b)]
  by_cases h : unionSize (tokenize a) (tokenize b) = 0
  · simp [h]
  · simp [h]

theorem computeSimilarity_eq_some (a b : String)
    (h : unionSize (tokenize a) (tokenize b) ≠ 0) :
    computeSimilarity a b =
      some (mkRat ((interTokens (tokenize a) (tokenize b)).length : Int)
        (unionSize (tokenize a) (tokenize b))) := by
  unfold computeSimilarity
  rw [if_neg h]

theorem computeSimilarity_nonneg_le_one (a b : String)
    (hnd : (tokenize a).Nodup) (q : ℚ) (hq : computeSimilarity a b = some q) :
    0 ≤ q ∧ q ≤ 1 := by
  have hu : unionSize (tokenize a) (tokenize b) ≠ 0 := by
    intro h0
    rw [(computeSimilarity_eq_none_iff a b).mpr
      ((unionSize_eq_zero_iff _ _).mp h0)] at hq
    exact Option.noConfusion hq
  rw [computeSimilarity_eq_div a b hu] at hq
  have hq' : q = ((interTokens (tokenize a) (tokenize b)).length : ℚ) /
      (unionSize (tokenize a) (tokenize b) : ℚ) := (Option.some_inj.mp hq).symm
  have hupos : (0 : ℚ) < (unionSize (tokenize a) (tokenize b) : ℚ) := by
    exact_mod_cast Nat.pos_of_ne_zero hu
  constructor
  · rw [hq']
    exact div_nonneg (Nat.cast_nonneg _) (le_of_lt hupos)
  · rw [hq', div_le_one hupos]
    exact_mod_cast interTokens_le_unionSize (tokenize a) (tokenize b) hnd

theorem computeSimilarity_self (x : String) (hne : tokenize x ≠ [])
    (hnd : (tokenize x).Nodup) : computeSimilarity x x = some 1 := by
  have hu : unionSize (tokenize x) (tokenize x) ≠ 0 := by
    intro h0
    exact hne ((unionSize_eq_zero_iff _ _).mp h0).1
  rw [computeSimilarity_eq_div x x hu, interTokens_self, unionSize_self _ hnd]
  have hpos : (0 : ℚ) < ((tokenize x).length : ℚ) := by
    exact_mod_cast Nat.pos_of_ne_zero (fun h => hne (List.length_eq_zero.mp h))
  rw [div_self (ne_of_gt hpos)]

theorem jsGt_eq_true_iff (o₁ o₂ : Option ℚ) :
    jsGt o₁ o₂ = true ↔ ∃ q₁ q₂, o₁ = some q₁ ∧ o₂ = some q₂ ∧ q₂ < q₁ := by
  cases o₁ with
  | none => simp [jsGt]
  | some q₁ =>
    cases o₂ with
    | none => simp [jsGt]
    | some q₂ => simp [jsGt]

theorem firstImprove_eq_find? (base cur : String)
    (ms : List (String → String → String)) :
    firstImprove base cur ms =
      (ms.map (fun m => m base cur)).find?
        (fun n => jsGt (computeSimilarity base n) (computeSimilarity base cur)) := by
  induction ms with
  | nil => rfl
  | cons m ms ih =>
    by_cases h : jsGt (computeSimilarity base (m base cur))
        (computeSimilarity base cur) = true
    · rw [firstImprove, if_pos h, List.map_cons]
      simp [List.find?_cons, h]
    · rw [firstImprove, if_neg h, List.map_cons]
      rw [Bool.not_eq_true] at h
      simp [List.find?_cons, h, ih]

theorem improveStep_jsGt (base cur c' : String)
    (h : improveStep base cur = some c') :
    jsGt (computeSimilarity base c') (computeSimilarity base cur) = true := by
  rw [improveStep, firstImprove_eq_find?] at h
  simpa using List.find?_some h

theorem improveStep_mem (base cur c' : String)
    (h : improveStep base cur = some c') :
    c' ∈ cleaningMethods.map (fun m => m base cur) := by
  rw [improveStep, firstImprove_eq_find?] at h
  exact List.mem_of_find?_eq_some h

theorem cntAbove_le (a u a' u' b : Nat) (ha : 1 ≤ a)
    (hcross : a * u' < a' * u) : cntAbove a' u' b ≤ cntAbove a u b := by
  rcases Nat.eq_zero_or_pos b with hb | hb
  · subst hb
    simp [cntAbove]
  · apply Finset.card_le_card
    intro v hv
    rw [Finset.mem_filter, Finset.mem_range] at hv ⊢
    obtain ⟨_, hv1, hv2⟩ := hv
    have ha' : 0 < a' := by
      rcases Nat.eq_zero_or_pos a' with h0 | h0
      · subst h0
        simp at hcross
      · exact h0
    have key : a' * (a * v) < a' * (b * u) := by
      calc a' * (a * v) = a * (a' * v) := by ring
        _ < a * (b * u') := by
            exact mul_lt_mul_of_pos_left hv2 ha
        _ = b * (a * u') := by ring
        _ < b * (a' * u) := mul_lt_mul_of_pos_left hcross hb
        _ = a' * (b * u) := by ring
    have hav : a * v < b * u := lt_of_mul_lt_mul_left key (Nat.zero_le a')
    have hvav : v ≤ a * v := Nat.le_mul_of_pos_left v ha
    exact ⟨lt_of_le_of_lt hvav hav, hv1, hav⟩

theorem cntAbove_strict (a u a' u' : Nat) (ha : 1 ≤ a) (ha' : 1 ≤ a')
    (hu' : 1 ≤ u') (hcross : a * u' < a' * u) :
    cntAbove a' u' a' < cntAbove a u a' := by
  have heq : cntAbove a' u' a' = u' - 1 := by
    have : (Finset.range (a' * u')).filter (fun v => 1 ≤ v ∧ a' * v < a' * u') =
        Finset.Ico 1 u' := by
      ext v
      rw [Finset.mem_filter, Finset.mem_range, Finset.mem_Ico]
      constructor
      · rintro ⟨_, h1, h2⟩
        exact ⟨h1, lt_of_mul_lt_mul_left h2 (Nat.zero_le a')⟩
      · rintro ⟨h1, h2⟩
        refine ⟨?_, h1, mul_lt_mul_of_pos_left h2 ha'⟩
        exact lt_of_lt_of_le h2 (Nat.le_mul_of_pos_left u' ha')
    rw [cntAbove, this, Nat.card_Ico]
  have hge : u' ≤ cntAbove a u a' := by
    have hsub : Finset.Ico 1 (u' + 1) ⊆
        (Finset.range (a' * u)).filter (fun v => 1 ≤ v ∧ a * v < a' * u) := by
      intro v hv
      rw [Finset.mem_Ico] at hv
      obtain ⟨h1, h2⟩ := hv
      have hvu' : v ≤ u' := Nat.lt_succ_iff.mp h2
      have hav : a * v < a' * u :=
        lt_of_le_of_lt (Nat.mul_le_mul_left a hvu') hcross
      have hvav : v ≤ a * v := Nat.le_mul_of_pos_left v ha
      rw [Finset.mem_filter, Finset.mem_range]
      exact ⟨lt_of_le_of_lt hvav hav, h1, hav⟩
    calc u' = (Finset.Ico 1 (u' + 1)).card := by rw [Nat.card_Ico]; omega
      _ ≤ _ := Finset.card_le_card hsub
  omega

theorem rankR_lt (N a u a' u' : Nat) (ha : 1 ≤ a) (ha' : 1 ≤ a')
    (haN : a' ≤ N) (hu' : 1 ≤ u') (hcross : a * u' < a' * u) :
    rankR N a' u' < rankR N a u := by
  apply Finset.sum_lt_sum
  · intro b _
    exact cntAbove_le a u a' u' b ha hcross
  · exact ⟨a', Finset.mem_range.mpr (Nat.lt_succ_of_le haN),
      cntAbove_strict a u a' u' ha ha' hu' hcross⟩

theorem computeSimilarity_some_uSize (base c : String) (q : ℚ)
    (h : computeSimilarity base c = some q) : uSize base c ≠ 0 := by
  intro h0
  rw [uSize] at h0
  rw [(computeSimilarity_eq_none_iff base c).mpr
    ((unionSize_eq_zero_iff _ _).mp h0)] at h
  exact Option.noConfusion h

theorem jsGt_cross (base c c' : String)
    (h : jsGt (computeSimilarity base c') (computeSimilarity base c) = true) :
    1 ≤ uSize base c ∧ 1 ≤ uSize base c' ∧ 1 ≤ interCount base c' ∧
      interCount base c * uSize base c' < interCount base c' * uSize base c := by
  obtain ⟨q', q, hq', hq, hlt⟩ := (jsGt_eq_true_iff _ _).mp h
  have hu : uSize base c ≠ 0 := computeSimilarity_some_uSize base c q hq
  have hu' : uSize base c' ≠ 0 := computeSimilarity_some_uSize base c' q' hq'
  rw [computeSimilarity_eq_div base c hu] at hq
  rw [computeSimilarity_eq_div base c' hu'] at hq'
  rw [Option.some_inj] at hq hq'
  have hupos : (0 : ℚ) < (unionSize (tokenize base) (tokenize c) : ℚ) := by
    exact_mod_cast Nat.pos_of_ne_zero hu
  have hupos' : (0 : ℚ) < (unionSize (tokenize base) (tokenize c') : ℚ) := by
    exact_mod_cast Nat.pos_of_ne_zero hu'
  rw [← hq, ← hq', div_lt_div_iff₀ hupos hupos'] at hlt
  have hcross : interCount base c * uSize base c' <
      interCount base c' * uSize base c := by
    rw [interCount, uSize, interCount, uSize]
    exact_mod_cast hlt
  refine ⟨Nat.pos_of_ne_zero hu, Nat.pos_of_ne_zero hu', ?_, hcross⟩
  rcases Nat.eq_zero_or_pos (interCount base c') with h0 | h0
  · rw [h0] at hcross
    omega
  · exact h0

theorem le_foldr_max (l : List Nat) (x : Nat) (h : x ∈ l) :
    x ≤ l.foldr max 0 := by
  induction l with
  | nil => cases h
  | cons y ys ih =>
    rcases List.mem_cons.mp h with h | h
    · subst h
      exact le_max_left _ _
    · exact le_trans (ih h) (le_max_right _ _)

theorem interCount_le (base c : String) :
    interCount base c ≤ (tokenize base).length :=
  List.length_filter_le _ _

theorem stateRank_dec (base c c' : String) (h : improveStep base c = some c') :
    stateRank base c' < stateRank base c := by
  have hgt := improveStep_jsGt base c c' h
  obtain ⟨hu, hu', ha', hcross⟩ := jsGt_cross base c c' hgt
  have haN : interCount base c' ≤ (tokenize base).length := interCount_le base c'
  have ha'0 : ¬ interCount base c' = 0 := by omega
  by_cases ha : interCount base c = 0
  · rw [stateRank, stateRank, if_pos ha, if_neg ha'0]
    have hmem : rankR (tokenize base).length (interCount base c') (uSize base c') ∈
        cleaningMethods.map (fun m =>
          rankR (tokenize base).length (interCount base (m base c))
            (uSize base (m base c))) := by
      obtain ⟨m, hm, hmc⟩ := List.mem_map.mp (improveStep_mem base c c' h)
      refine List.mem_map.mpr ⟨m, hm, ?_⟩
      simp only [hmc]
    exact Nat.lt_succ_of_le (le_foldr_max _ _ hmem)
  · rw [stateRank, stateRank, if_neg ha, if_neg ha'0]
    exact rankR_lt (tokenize base).length (interCount base c) (uSize base c)
      (interCount base c') (uSize base c') (Nat.pos_of_ne_zero ha) ha' haN hu' hcross

theorem cleanFuel_fix (base : String) :
    ∀ n cur, stateRank base cur < n →
      improveStep base (cleanFuel base n cur) = none := by
  intro n
  induction n with
  | zero => intro cur h; exact absurd h (Nat.not_lt_zero _)
  | succ n ih =>
    intro cur h
    cases hs : improveStep base cur with
    | none => simp [cleanFuel, hs]
    | some c' =>
      simp only [cleanFuel, hs]
      exact ih c' (by have := stateRank_dec base cur c' hs; omega)

theorem cleanContent_fix (base content : String) :
    improveStep base (cleanContent base content) = none :=
  cleanFuel_fix base _ content (Nat.lt_succ_self _)

theorem cleanFuel_iter (base : String) :
    ∀ n cur, ∃ k, (stepF base)^[k] cur = cleanFuel base n cur := by
  intro n
  induction n with
  | zero => intro cur; exact ⟨0, rfl⟩
  | succ n ih =>
    intro cur
    cases hs : improveStep base cur with
    | none => exact ⟨0, by simp [cleanFuel, hs]⟩
    | some c' =>
      obtain ⟨k, hk⟩ := ih c'
      refine ⟨k + 1, ?_⟩
      rw [Function.iterate_succ_apply]
      have : stepF base cur = c' := by rw [stepF, hs]
      rw [this, hk]
      simp [cleanFuel, hs]

theorem cleanFuel_sim_ge (base : String) :
    ∀ n cur q, computeSimilarity base cur = some q →
      ∃ q', computeSimilarity base (cleanFuel base n cur) = some q' ∧ q ≤ q' := by
  intro n
  induction n with
  | zero => intro cur q hq; exact ⟨q, hq, le_refl q⟩
  | succ n ih =>
    intro cur q hq
    cases hs : improveStep base cur with
    | none =>
      refine ⟨q, ?_, le_refl q⟩
      simpa [cleanFuel, hs] using hq
    | some c' =>
      have hgt := improveStep_jsGt base cur c' hs
      obtain ⟨q₁, q₂, hq₁, hq₂, hlt⟩ := (jsGt_eq_true_iff _ _).mp hgt
      rw [hq, Option.some_inj] at hq₂
      obtain ⟨q', hq', hle⟩ := ih c' q₁ hq₁
      refine ⟨q', ?_, le_of_lt (lt_of_lt_of_le (hq₂ ▸ hlt) hle)⟩
      simpa [cleanFuel, hs] using hq'

/-- The fixpoint loop of `cleanContent` never decreases the similarity of
the region against the base: the output's score is at least the input's. -/
theorem cleanContent_sim_ge (base content : String) (q : ℚ)
    (hq : computeSimilarity base content = some q) :
    ∃ q', computeSimilarity base (cleanContent base content) = some q' ∧ q ≤ q' :=
  cleanFuel_sim_ge base _ content q hq

/-- Concatenation of the characters of a list of strings, used to relate
the diff parts back to the text they partition. -/
def catD (L : List String) : List Char :=
  (L.map String.data).flatten

/-- Concatenation of a list of strings. -/
def catS (L : List String) : String := String.mk (catD L)

theorem catS_cons (v : String) (vs : List String) :
    catS (v :: vs) = v ++ catS vs := by
  apply String.ext
  rw [String.data_append]
  simp [catS, catD]

theorem lcsDiffGo_self (fuel : Nat) (L : List String)
    (h : L.length + L.length ≤ fuel) :
    lcsDiffGo fuel L L = L.map (fun l => (DiffTag.common, l)) := by
  induction L generalizing fuel with
  | nil => cases fuel <;> simp [lcsDiffGo]
  | cons x xs ih =>
    rw [List.length_cons] at h
    cases fuel with
    | zero => omega
    | succ f =>
      simp only [lcsDiffGo, List.map_cons]
      rw [ih f (by omega)]
      exact if_pos trivial

theorem lcsDiff_self (L : List String) :
    lcsDiff L L = L.map (fun l => (DiffTag.common, l)) :=
  lcsDiffGo_self _ L (le_refl _)

theorem groupParts_common (vs : List String) (v : String) :
    groupParts ((v :: vs).map (fun s => (DiffTag.common, s))) =
      [(DiffTag.common, v ++ catS vs)] := by
  induction vs generalizing v with
  | nil =>
    simp only [List.map_cons, List.map_nil, groupParts]
    have : catS ([] : List String) = "" := rfl
    rw [this]
    have : v ++ "" = v := by
      cases v
      simp [String.ext_iff]
    rw [this]
  | cons w ws ih =>
    rw [List.map_cons, groupParts, ih w]
    simp [catS_cons]

theorem splitKeepNlGo_catD (l acc : List Char) :
    catD (splitKeepNlGo l acc) = acc.reverse ++ l := by
  induction l generalizing acc with
  | nil =>
    cases acc with
    | nil => rfl
    | cons a as => simp [splitKeepNlGo, catD]
  | cons c rest ih =>
    by_cases hc : c = '\n'
    · rw [splitKeepNlGo, if_pos hc]
      subst hc
      have h2 := ih ([] : List Char)
      simp only [List.reverse_nil, List.nil_append] at h2
      simp only [catD, List.map_cons, List.flatten_cons] at h2 ⊢
      rw [h2]
      simp
    · rw [splitKeepNlGo, if_neg hc, ih (c :: acc)]
      simp

theorem splitKeepNl_catS (x : String) : catS (splitKeepNl x) = x := by
  apply String.ext
  rw [catS, splitKeepNl]
  rw [show (String.mk (catD (splitKeepNlGo x.data []))).data =
    catD (splitKeepNlGo x.data []) from rfl]
  rw [splitKeepNlGo_catD]
  rfl

/-- On identical inputs the line diff consists of a single unchanged part
carrying the whole text, so `clean` copies the text verbatim and reports
`computeSimilarity x x`. -/
theorem clean_self (x : String) : clean x x = (x, computeSimilarity x x) := by
  rw [clean]
  cases hL : splitKeepNl x with
  | nil =>
    have hx : x = "" := by
      have := splitKeepNl_catS x
      rw [hL] at this
      exact this.symm
    subst hx
    rfl
  | cons v vs =>
    rw [lcsDiff_self, groupParts_common]
    have hval : v ++ catS vs = x := by
      have := splitKeepNl_catS x
      rw [hL, catS_cons] at this
      exact this
    rw [hval]
    have : ("" : String) ++ x = x := by
      cases x
      simp [String.ext_iff]
    simp only [List.foldl_cons, List.foldl_nil, this]

theorem lastNl_eq_none (w : List Char) (h : '\n' ∉ w) : lastNl w = none := by
  induction w with
  | nil => rfl
  | cons c t ih =>
    have hc : ¬ c = '\n' := fun hc => h (hc ▸ List.mem_cons_self c t)
    have ht : '\n' ∉ t := fun ht => h (List.mem_cons_of_mem c ht)
    rw [lastNl, ih ht, if_neg hc]

theorem memTakeWhile (p : Char → Bool) (l : List Char) (x : Char)
    (h : x ∈ l.takeWhile p) : x ∈ l := by
  induction l with
  | nil => simp at h
  | cons c t ih =>
    by_cases hc : p c = true
    · rw [List.takeWhile_cons, if_pos hc] at h
      rcases List.mem_cons.mp h with h | h
      · exact h ▸ List.mem_cons_self c t
      · exact List.mem_cons_of_mem c (ih h)
    · rw [List.takeWhile_cons, if_neg hc] at h
      simp at h

theorem dropWhileSpace_ne_nil (l : List Char) (hne : l ≠ [])
    (hlast : isSpaceChar (l.getLastD 'a') = false) :
    l.dropWhile isSpaceChar ≠ [] := by
  induction l with
  | nil => exact absurd rfl hne
  | cons c t ih =>
    by_cases hc : isSpaceChar c = true
    · rw [List.dropWhile_cons, if_pos hc]
      cases t with
      | nil =>
        rw [List.getLastD_cons, List.getLastD_nil] at hlast
        rw [hc] at hlast
        exact absurd hlast (by simp)
      | cons d t' =>
        refine ih (by simp) ?_
        rw [List.getLastD_cons, List.getLastD_cons] at hlast
        rw [List.getLastD_cons]
        exact hlast
    · rw [List.dropWhile_cons, if_neg hc]
      simp

theorem takeWhileSpace_append (l s : List Char)
    (h : l.dropWhile isSpaceChar ≠ []) :
    (l ++ s).takeWhile isSpaceChar = l.takeWhile isSpaceChar ∧
      (l ++ s).dropWhile isSpaceChar = l.dropWhile isSpaceChar ++ s := by
  induction l with
  | nil => exact absurd rfl h
  | cons c t ih =>
    by_cases hc : isSpaceChar c = true
    · rw [List.dropWhile_cons, if_pos hc] at h
      obtain ⟨h1, h2⟩ := ih h
      rw [List.cons_append, List.takeWhile_cons, if_pos hc,
        List.takeWhile_cons, if_pos hc, h1,
        List.dropWhile_cons, if_pos hc,
        List.dropWhile_cons, if_pos hc, h2]
      exact ⟨rfl, rfl⟩
    · rw [List.cons_append, List.takeWhile_cons, if_neg hc,
        List.takeWhile_cons, if_neg hc,
        List.dropWhile_cons, if_neg hc,
        List.dropWhile_cons, if_neg hc, List.cons_append]
      exact ⟨rfl, rfl⟩

theorem appendSemisGo_line (l : List Char) :
    ∀ fuel, l.length + 1 ≤ fuel → '\n' ∉ l → ';' ∉ l → l ≠ [] →
      isSpaceChar (l.getLastD 'a') = false →
      appendSemisGo fuel (l ++ ['\n']) = l ++ [';'] := by
  induction l with
  | nil => intro fuel _ _ _ hne _; exact absurd rfl hne
  | cons c l₂ ih =>
    intro fuel hf hnl hsc _ hlast
    have hc : ¬ c = ';' := fun hc => hsc (hc ▸ List.mem_cons_self c l₂)
    cases fuel with
    | zero => simp at hf
    | succ f =>
      rw [List.cons_append]
      cases l₂ with
      | nil =>
        simp [appendSemisGo, if_neg hc, List.takeWhile, List.dropWhile,
          isSpaceChar]
      | cons d l₃ =>
        have hlast₂ : isSpaceChar ((d :: l₃).getLastD 'a') = false := by
          rw [List.getLastD_cons, List.getLastD_cons] at hlast
          rw [List.getLastD_cons]
          exact hlast
        have hdw : (d :: l₃).dropWhile isSpaceChar ≠ [] :=
          dropWhileSpace_ne_nil (d :: l₃) (by simp) hlast₂
        obtain ⟨htw, hdw'⟩ := takeWhileSpace_append (d :: l₃) ['\n'] hdw
        have hnlw : '\n' ∉ (d :: l₃).takeWhile isSpaceChar := fun hm =>
          hnl (List.mem_cons_of_mem c (memTakeWhile _ _ _ hm))
        rw [appendSemisGo, if_neg hc]
        simp only [htw, hdw']
        rw [lastNl_eq_none _ hnlw]
        have hre : ((d :: l₃).dropWhile isSpaceChar ++ ['\n']).isEmpty = false := by
          cases hx : (d :: l₃).dropWhile isSpaceChar with
          | nil => exact absurd hx hdw
          | cons y ys => rfl
        rw [hre]
        simp only [Bool.false_eq_true, if_false]
        rw [ih f (by simpa using hf)
          (fun hm => hnl (List.mem_cons_of_mem c hm))
          (fun hm => hsc (List.mem_cons_of_mem c hm))
          (by simp) hlast₂]
        rfl

theorem stripSemisGo_line (l : List Char) :
    ∀ fuel, l.length + 2 ≤ fuel → ';' ∉ l →
      stripSemisGo fuel (l ++ [';', '\n']) = l := by
  induction l with
  | nil =>
    intro fuel hf _
    cases fuel with
    | zero => simp at hf
    | succ f =>
      simp [stripSemisGo, List.takeWhile, List.dropWhile, isSpaceChar]
  | cons c l₂ ih =>
    intro fuel hf hsc
    have hc : ¬ c = ';' := fun hc => hsc (hc ▸ List.mem_cons_self c l₂)
    cases fuel with
    | zero => simp at hf
    | succ f =>
      rw [List.cons_append, stripSemisGo, if_neg hc,
        ih f (by simpa using hf) (fun hm => hsc (List.mem_cons_of_mem c hm))]

/-- Append mode of `normalizeSemicolons` on a single newline-terminated
line: when the base contains a semicolon anywhere and the line has no
semicolon, no newline and no trailing whitespace, the replacement emits the
line followed by `';'` — the greedy `\s*` of the pattern swallows the final
newline, so the newline is not retained. -/
theorem normalizeSemicolons_append (base l : String)
    (hbase : ';' ∈ base.data) (hnl : '\n' ∉ l.data) (hsc : ';' ∉ l.data)
    (hne : l.data ≠ []) (hlast : isSpaceChar (l.data.getLastD 'a') = false) :
    normalizeSemicolons base (l ++ "\n") = l ++ ";" := by
  rw [normalizeSemicolons,
    if_pos (show base.data.contains ';' = true from List.elem_eq_true_of_mem hbase)]
  apply String.ext
  rw [show (l ++ "\n").data = l.data ++ ['\n'] from String.data_append l "\n",
    show (l ++ ";").data = l.data ++ [';'] from String.data_append l ";"]
  rw [show (String.mk (appendSemisGo (l.data ++ ['\n']).length (l.data ++ ['\n']))).data
      = appendSemisGo (l.data ++ ['\n']).length (l.data ++ ['\n']) from rfl]
  exact appendSemisGo_line l.data _ (by simp) hnl hsc hne hlast

/-- Strip mode of `normalizeSemicolons` on a single line ending in `";\n"`:
when the base contains no semicolon and the line itself has no other
semicolon, the trailing `";"` is stripped — and the greedy `\s*` swallows
the final newline, so the newline disappears as well. -/
theorem normalizeSemicolons_strip (base l : String)
    (hbase : ';' ∉ base.data) (hsc : ';' ∉ l.data) :
    normalizeSemicolons base (l ++ ";\n") = l := by
  rw [normalizeSemicolons, if_neg (by
    intro hmem
    exact hbase (by simpa [List.elem_iff] using hmem))]
  apply String.ext
  rw [show (l ++ ";\n").data = l.data ++ [';', '\n'] from String.data_append l ";\n"]
  rw [show (String.mk (stripSemisGo (l.data ++ [';', '\n']).length
      (l.data ++ [';', '\n']))).data
      = stripSemisGo (l.data ++ [';', '\n']).length (l.data ++ [';', '\n']) from rfl]
  exact stripSemisGo_line l.data _ (by simp) hsc

theorem sappend_empty (s : String) : s ++ "" = s := by
  cases s
  simp [String.ext_iff]

theorem sempty_append (s : String) : "" ++ s = s := by
  cases s
  simp [String.ext_iff]

theorem sappend_assoc (a b c : String) : a ++ b ++ c = a ++ (b ++ c) := by
  apply String.ext
  simp [String.data_append, List.append_assoc]

theorem foldl_parts (base : String) (parts : List (DiffTag × String)) :
    ∀ acc : String,
      parts.foldl (fun acc p =>
        match p.1 with
        | DiffTag.added => acc ++ cleanContent base p.2
        | DiffTag.removed => acc
        | DiffTag.common => acc ++ p.2) acc =
      acc ++ catS (parts.map (fun p =>
        match p.1 with
        | DiffTag.added => cleanContent base p.2
        | DiffTag.removed => ""
        | DiffTag.common => p.2)) := by
  induction parts with
  | nil => intro acc; exact (sappend_empty acc).symm
  | cons p ps ih =>
    intro acc
    obtain ⟨t, v⟩ := p
    cases t with
    | common =>
      simp only [List.foldl_cons, List.map_cons, catS_cons]
      rw [ih (acc ++ v), sappend_assoc]
    | removed =>
      simp only [List.foldl_cons, List.map_cons, catS_cons]
      rw [ih acc, sempty_append]
    | added =>
      simp only [List.foldl_cons, List.map_cons, catS_cons]
      rw [ih (acc ++ cleanContent base v), sappend_assoc]

/-- The unchanged leading block of the region-reference counterexample:
the two common lines `"b"` and `"c"`. -/
def exU7 : String :=
  String.mk [dquote, 'b', dquote, '\n', dquote, 'c', dquote, '\n']

theorem contains_eq_decide_mem (l : List String) (x : String) :
    l.contains x = decide (x ∈ l) := by
  by_cases hx : x ∈ l
  · simp [hx, List.elem_eq_true_of_mem hx]
  · simp [hx]

/-- C1: the claim that `computeSimilarity` always returns a value in
`[0, 1]` is false: the numerator counts every occurrence in the first
argument's token sequence, so duplicated tokens push the quotient above 1.
At `a = "x x"`, `b = "x"` the intersection count is 2 and the union size
is 1, so the similarity is 2. -/
theorem claim_C1_counterexample :
    computeSimilarity "x x" "x" = some 2 ∧ ¬ ((2 : ℚ) ≤ 1) := by
  constructor
  · decide
  · decide

/-- C1 (amended): `computeSimilarity a b` is nonnegative, and it lies in
`[0, 1]` whenever the token sequence of `a` has no duplicates; with
duplicated tokens in `a` the value can exceed 1, and when both inputs
tokenize to nothing the JavaScript value is NaN (`none`), not a number. -/
theorem claim_C1_amended (a b : String) (q : ℚ) (hnd : (tokenize a).Nodup)
    (hq : computeSimilarity a b = some q) : 0 ≤ q ∧ q ≤ 1 :=
  computeSimilarity_nonneg_le_one a b hnd q hq

/-- Witness for the amended C1 at `a = "x"`, `b = "y"`. -/
theorem claim_C1_witness : 0 ≤ (0 : ℚ) ∧ (0 : ℚ) ≤ 1 :=
  claim_C1_amended "x" "y" 0 (by decide) (by decide)

/-- C2: the claim `reconcile(x, x) = (x, 1.0)` for every `x` with at least
one token is false: on `x = "x x"` (two tokens) the diff copies the text
verbatim but the reported similarity is `2`, not `1`, because the
duplicated token is counted twice in the numerator and once in the union. -/
theorem claim_C2_counterexample :
    clean "x x" "x x" = ("x x", some 2) ∧ ((2 : ℚ) ≠ 1) := by
  constructor
  · decide
  · decide

/-- C2 (amended): `clean x x = (x, 1.0)` holds for every text `x` whose
token sequence is nonempty and free of duplicate tokens; the text component
is always `x`, but the score exceeds 1 when tokens repeat. -/
theorem claim_C2_amended (x : String) (h1 : tokenize x ≠ [])
    (h2 : (tokenize x).Nodup) : clean x x = (x, some 1) := by
  rw [clean_self, computeSimilarity_self x h1 h2]

/-- Witness for the amended C2 at `x = "x"`. -/
theorem claim_C2_witness : clean "x" "x" = ("x", some 1) :=
  claim_C2_amended "x" (by decide) (by decide)

/-- C3: the claim that the final score never drops below
`similarity(base, modified)` is false.  With base `" "` / `@'` and
modified `" "` / `@' '`, quote normalization of the changed region is
accepted (it raises the region-against-whole-base score from 1/3 to 2/3)
but it destroys the token `@'` that the base needed, so the reported
whole-text score is 2/3 while the raw modified text scored 1. -/
theorem claim_C3_counterexample :
    clean exB3 exM3 = (exC3out, some (mkRat 2 3)) ∧
      computeSimilarity exB3 exM3 = some 1 ∧ mkRat 2 3 < 1 := by
  refine ⟨by decide, by decide, by decide⟩

/-- C3 (amended): monotonic improvement holds per region, not for the whole
text: for every changed region, the fixpoint loop never decreases the
similarity of the region against the base, but the whole-text score of the
assembled output can be lower than that of the raw modified input. -/
theorem claim_C3_amended (base content : String) (q : ℚ)
    (hq : computeSimilarity base content = some q) :
    ∃ q', computeSimilarity base (cleanContent base content) = some q' ∧
      q ≤ q' :=
  cleanContent_sim_ge base content q hq

/-- Witness for the amended C3 at `base = "x"`, `content = "y"`. -/
theorem claim_C3_witness :
    ∃ q', computeSimilarity "x" (cleanContent "x" "y") = some q' ∧
      (0 : ℚ) ≤ q' :=
  claim_C3_amended "x" "y" 0 (by decide)

/-- C4: whenever at least one input tokenizes to something,
`computeSimilarity a b` equals the documented formula: the number of
occurrences in `a`'s token sequence whose token appears anywhere in `b`'s
tokens, divided by the number of distinct tokens of the union of the two
sequences. -/
theorem claim_C4 (a b : String) (h : tokenize a ≠ [] ∨ tokenize b ≠ []) :
    computeSimilarity a b =
      some ((((tokenize a).countP (fun t => decide (t ∈ tokenize b))) : ℚ) /
        (((tokenize a).toFinset ∪ (tokenize b).toFinset).card : ℚ)) := by
  have hu : unionSize (tokenize a) (tokenize b) ≠ 0 := by
    intro h0
    obtain ⟨h1, h2⟩ := (unionSize_eq_zero_iff _ _).mp h0
    rcases h with h | h
    · exact h h1
    · exact h h2
  rw [computeSimilarity_eq_div a b hu]
  have hnum : interTokens (tokenize a) (tokenize b) =
      (tokenize a).filter (fun t => decide (t ∈ tokenize b)) := by
    rw [interTokens]
    apply List.filter_congr
    intro x _
    exact contains_eq_decide_mem (tokenize b) x
  rw [hnum, ← List.countP_eq_length_filter, unionSize_eq_card]

/-- Witness for C4 at `a = b = "x"`. -/
theorem claim_C4_witness :
    computeSimilarity "x" "x" =
      some ((((tokenize "x").countP (fun t => decide (t ∈ tokenize "x"))) : ℚ) /
        (((tokenize "x").toFinset ∪ (tokenize "x").toFinset).card : ℚ)) :=
  claim_C4 "x" "x" (Or.inl (by decide))

/-- C5: in the transformation fixpoint loop, a candidate is adopted exactly
when its similarity against the reference is strictly greater than the
current one: the accepted state is the first strictly improving candidate
of the ordered method list, a tying or decreasing candidate is skipped with
the current text and score unchanged, and every adopted candidate strictly
improves the score. -/
theorem claim_C5 (base cur : String) :
    improveStep base cur =
      (cleaningMethods.map (fun m => m base cur)).find?
        (fun n => jsGt (computeSimilarity base n) (computeSimilarity base cur)) ∧
    ∀ c', improveStep base cur = some c' →
      jsGt (computeSimilarity base c') (computeSimilarity base cur) = true :=
  ⟨firstImprove_eq_find? base cur cleaningMethods,
   fun c' h => improveStep_jsGt base cur c' h⟩

/-- Witness for C5: with base `"x"` and current text `'y'`, quote
normalization is adopted and its output strictly improves the score. -/
theorem claim_C5_witness :
    jsGt (computeSimilarity (String.mk [dquote, 'x', dquote])
        (String.mk [dquote, 'y', dquote]))
      (computeSimilarity (String.mk [dquote, 'x', dquote])
        (String.mk [squote, 'y', squote])) = true :=
  (claim_C5 (String.mk [dquote, 'x', dquote])
      (String.mk [squote, 'y', squote])).2
    (String.mk [dquote, 'y', dquote]) (by decide)

/-- C6: the transformation fixpoint loop of `cleanContent` terminates on
every input: after finitely many accepted steps (`stepF` iterations) it
reaches the returned text, on which no transformation improves the score
any more. -/
theorem claim_C6 (base content : String) :
    improveStep base (cleanContent base content) = none ∧
      ∃ k, (stepF base)^[k] content = cleanContent base content :=
  ⟨cleanContent_fix base content, cleanFuel_iter base _ content⟩

/-- C7: the claim that the acceptance comparisons use the base region
aligned with the changed region is false: `cleanContent` compares every
candidate against the whole base text (`this.baseContent`).  With base
`"b"` / `"c"` / `'a'` and modified `"b"` / `"c"` / `'d'`, the changed
region `'d'` is aligned with the removed base line `'a'`, whose dominant
quote is `'`; cleaning against that aligned line would leave `'d'`
unchanged, yet the engine produces `"d"`, driven by the whole base's
dominant quote `"`. -/
theorem claim_C7_counterexample :
    groupParts (lcsDiff (splitKeepNl exB7) (splitKeepNl exM7)) =
        [(DiffTag.common, exU7), (DiffTag.removed, exAligned7),
         (DiffTag.added, exP7)] ∧
      cleanContent exB7 exP7 = exQ7 ∧
      cleanContent exAligned7 exP7 = exP7 ∧
      exQ7 ≠ exP7 ∧
      (clean exB7 exM7).1 = exC7out := by
  refine ⟨by decide, by decide, by decide, by decide, by decide⟩

/-- C7 (amended): the reference text used in every acceptance comparison is
the whole base text: `clean` assembles its output by copying common parts,
dropping removed parts, and replacing each added part `p` by
`cleanContent base p`, whose acceptance oracle is
`computeSimilarity base ·` for the entire base. -/
theorem claim_C7_amended (base modified : String) :
    (clean base modified).1 =
      catS ((groupParts (lcsDiff (splitKeepNl base) (splitKeepNl modified))).map
        (fun p =>
          match p.1 with
          | DiffTag.added => cleanContent base p.2
          | DiffTag.removed => ""
          | DiffTag.common => p.2)) := by
  rw [clean]
  rw [foldl_parts base _ "", sempty_append]

/-- C8: the claim that semicolon normalization keys on whether the
reference line ends with `';'` and otherwise leaves the line unchanged is
false: the mode is selected by whether the whole reference text contains
`';'` anywhere.  With reference `"; x\n"` (which contains `';'` but whose
line does not end with it) and text `"y\n"` (no trailing semicolon), the
claim predicts no change, but the code appends a semicolon — and the
greedy `\s*` also swallows the final newline. -/
theorem claim_C8_counterexample :
    normalizeSemicolons "; x\n" "y\n" = "y;" ∧ ("y;" : String) ≠ "y\n" := by
  refine ⟨by decide, by decide⟩

/-- C8 (amended): the mode is chosen by whether the reference text contains
`';'` anywhere.  In append mode, a line without semicolons, newlines or
trailing whitespace gets `';'` appended after its last character, with the
final newline consumed by the greedy `\s*` of the pattern; in strip mode a
trailing `";"` is removed together with the final newline. -/
theorem claim_C8_amended (base l : String) :
    (';' ∈ base.data → '\n' ∉ l.data → ';' ∉ l.data → l.data ≠ [] →
      isSpaceChar (l.data.getLastD 'a') = false →
      normalizeSemicolons base (l ++ "\n") = l ++ ";") ∧
    (';' ∉ base.data → ';' ∉ l.data →
      normalizeSemicolons base (l ++ ";\n") = l) :=
  ⟨fun h1 h2 h3 h4 h5 => normalizeSemicolons_append base l h1 h2 h3 h4 h5,
   fun h1 h2 => normalizeSemicolons_strip base l h1 h2⟩

/-- Witness for the amended C8 at `l = "y"` with references `"; x\n"`
(append mode) and `"x\n"` (strip mode). -/
theorem claim_C8_witness :
    normalizeSemicolons "; x\n" ("y" ++ "\n") = "y" ++ ";" ∧
      normalizeSemicolons "x\n" ("y" ++ ";\n") = "y" :=
  ⟨(claim_C8_amended "; x\n" "y").1 (by decide) (by decide) (by decide)
      (by decide) (by decide),
   (claim_C8_amended "x\n" "y").2 (by decide) (by decide)⟩

/-- C9: the spec says `similarity` returns 0 when both inputs tokenize to
empty, but the code computes `0 / 0`, which in JavaScript is NaN, not 0
(modelled as `none`); the function never throws, so totality holds, but
the returned value at the empty inputs contradicts the documented 0. -/
theorem claim_C9 : computeSimilarity "" "" = none := by decide

/-- C10: quote normalization replaces every occurrence of `'`, `"` and the
backtick by the base's dominant quote character, which is `"` exactly when
the base contains at least as many `"` as `'` and `'` otherwise. -/
theorem claim_C10 (base content : String) :
    normalizeQuotes base content =
      String.mk (content.data.map (fun c =>
        if c = squote ∨ c = dquote ∨ c = btick then
          (if base.data.count squote ≤ base.data.count dquote then dquote
           else squote)
        else c)) := by
  rw [normalizeQuotes]
  apply congrArg
  apply List.map_congr_left
  intro c _
  by_cases hq : isQuoteChar c = true
  · rw [if_pos hq]
    have hq' : c = squote ∨ c = dquote ∨ c = btick := by
      rw [isQuoteChar] at hq
      rcases Bool.or_eq_true_iff.mp hq with h | h
      · rcases Bool.or_eq_true_iff.mp h with h | h
        · exact Or.inr (Or.inl (by simpa using h))
        · exact Or.inl (by simpa using h)
      · exact Or.inr (Or.inr (by simpa using h))
    rw [if_pos hq']
    rfl
  · rw [if_neg hq]
    have hq' : ¬ (c = squote ∨ c = dquote ∨ c = btick) := by
      intro hc
      apply hq
      rw [isQuoteChar]
      rcases hc with h | h | h
      · simp [h]
      · simp [h]
      · simp [h]
    rw [if_neg hq']

